import Mathlib

/-!
Shallow embedding of the chordapp symbolic-music pipeline
(`lib/keyTransform.ts`, `lib/chordEngine.ts`, `lib/romanEngine.ts`,
`lib/voicingEngine.ts`).

Machine numbers are modelled as `Int`/`Nat`; the JavaScript `%` operator is
`Int.tmod` (truncated, sign of the dividend), `Math.floor` division is
`Int.fdiv`.  Strings are Lean `String`s, processed through their `List Char`
data.  Fallible operations return `Option`.

The source calls two external libraries at its leaves:

* Tone.js, for note-name → MIDI conversion (`Tone.Frequency("C4").toMidi()`),
  MIDI → note-name printing (`toNote()`, sharp spellings) and integer
  transposition.  These are modelled exactly for integer MIDI values
  (`parseNoteChars`, `midiToNoteName`); octave suffixes are parsed/printed in
  decimal with an optional leading minus sign, as Tone.js does.
* tonal, for the chord-symbol → chord-tone lookup (`Chord.get(sym).notes`).
  This table is modelled from the spec (see `chordGetNotes`).

Floating-point cost arithmetic of the voicing engine is modelled with exact
rational pairs (`Frac`); all weights in play are exactly representable and no
claim below depends on float rounding.
-/

namespace ChordApp

/-! ### Decimal printing of integers (models JavaScript template `${n}`) -/

/-- Decimal digit characters of a natural number, fuel-structured so that the
kernel can evaluate it. -/
def natCharsAux : Nat → Nat → List Char → List Char
  | 0, _, acc => acc
  | fuel + 1, n, acc =>
    if n < 10 then Char.ofNat (48 + n) :: acc
    else natCharsAux fuel (n / 10) (Char.ofNat (48 + n % 10) :: acc)

/-- Decimal digits of `n`. -/
def natChars (n : Nat) : List Char := natCharsAux (n + 1) n []

/-- Decimal rendering of an integer, `-` sign for negatives (JS number
stringification for integral values). -/
def intChars (i : Int) : List Char :=
  if i < 0 then '-' :: natChars i.natAbs else natChars i.natAbs

/-- String form of `intChars`. -/
def intStr (i : Int) : String := ⟨intChars i⟩

/-! ### Note names and MIDI (models Tone.js `Frequency`) -/

/-- Semitone offset of a pitch letter within the octave (C = 0); Tone.js
matches letters case-insensitively. -/
def letterOffset : Char → Option Int
  | 'C' | 'c' => some 0
  | 'D' | 'd' => some 2
  | 'E' | 'e' => some 4
  | 'F' | 'f' => some 5
  | 'G' | 'g' => some 7
  | 'A' | 'a' => some 9
  | 'B' | 'b' => some 11
  | _ => none

/-- Parse a decimal natural number continuing from accumulator `acc`;
every remaining character must be a digit. -/
def parseDigitsAux (acc : Nat) : List Char → Option Nat
  | [] => some acc
  | c :: rest =>
    if c.isDigit then parseDigitsAux (acc * 10 + (c.toNat - 48)) rest else none

/-- Parse an octave number: optional `-`, then one or more decimal digits,
consuming the whole input (Tone.js note regex group `(-?[0-9]+)`). -/
def parseOctave : List Char → Option Int
  | '-' :: c :: rest =>
    if c.isDigit then (parseDigitsAux (c.toNat - 48) rest).map (fun n => -(n : Int))
    else none
  | c :: rest =>
    if c.isDigit then (parseDigitsAux (c.toNat - 48) rest).map (fun n => (n : Int))
    else none
  | [] => none

/-- Parse a note-with-octave string to a MIDI number, modelling Tone.js's note
regex `^([a-g]{1}(?:b|#|x|bb)?)(-?[0-9]+)$/i` and `toMidi()`
(`C4 = 60`).  The accidental alternatives are tried in the regex's order with
backtracking into the octave match, which makes `bb` reachable. -/
def parseNoteChars : List Char → Option Int
  | [] => none
  | c :: rest =>
    match letterOffset c with
    | none => none
    | some off =>
      let mk := fun (acc : Int) (tail : List Char) =>
        (parseOctave tail).map (fun oct => 12 * (oct + 1) + off + acc)
      match rest with
      | [] => none
      | a :: t1 =>
        if a = 'b' ∨ a = 'B' then
          match mk (-1) t1 with
          | some v => some v
          | none =>
            match t1 with
            | a2 :: t2 => if a2 = 'b' ∨ a2 = 'B' then mk (-2) t2 else none
            | [] => none
        else if a = '#' then mk 1 t1
        else if a = 'x' ∨ a = 'X' then mk 2 t1
        else mk 0 rest

/-- MIDI value of a note-name string, `none` when Tone.js would yield `NaN`. -/
def noteMidi (s : String) : Option Int := parseNoteChars s.data

/-- The twelve sharp-preferring pitch-class spellings Tone.js prints, from C
up to B. -/
def sharpNames : List String :=
  ["C", "C#"] ++ ["D", "D#", "E"] ++ ["F", "F#"] ++ ["G", "G#"] ++ ["A", "A#", "B"]

/-- Models `Tone.Frequency(m, "midi").toNote()`: sharp spelling of the pitch
class followed by the octave number (`C4 = 60`, octave may be negative). -/
def midiToNoteName (m : Int) : String :=
  sharpNames.getD (m.emod 12).toNat "C" ++ intStr (m.fdiv 12 - 1)

/-! ### lib/keyTransform.ts -/

/-- Models `stripOctave` of `keyTransform.ts`/`romanEngine.ts`/
`voicingEngine.ts`: `noteWithOctave.replace(/\d+/g, "")` removes every digit
character (a minus sign of a negative octave survives). -/
def stripOctave (s : String) : String := ⟨s.data.filter (fun c => !c.isDigit)⟩

/-- Mode of a key. -/
inductive KeyMode where
  | major
  | minor
deriving DecidableEq

/-- Models `KeySpec` of `keyTransform.ts`. -/
structure KeySpec where
  tonic : String
  mode : KeyMode
deriving DecidableEq

/-- Models `semitoneShift` of `keyTransform.ts`: difference of the tonic MIDI
values, `%`-reduced mod 12 (JS truncated remainder) and folded into `[-6, 6]`;
`0` when either tonic fails to parse. -/
def semitoneShift (fromTonic toTonic : String) : Int :=
  match noteMidi (fromTonic ++ "4"), noteMidi (toTonic ++ "4") with
  | some a, some b =>
    let diff := (b - a).tmod 12
    let diff := if diff > 6 then diff - 12 else diff
    let diff := if diff < -6 then diff + 12 else diff
    diff
  | _, _ => 0

/-- Models `transposeNoteName` of `keyTransform.ts`: parse `note` at octave 4,
shift by `semis`, print with Tone.js and strip the octave digits. -/
def transposeNoteName (note : String) (semis : Int) : Option String :=
  match noteMidi (note ++ "4") with
  | none => none
  | some m => some (stripOctave (midiToNoteName (m + semis)))

/-- Result of `splitChordRootAndSuffix`. -/
structure RootSuffix where
  root : Option String
  suffix : String
deriving DecidableEq

/-- Characters `A`–`G` (the chord-root letter class of the regex
`^([A-G](?:b|#)?)(.*)$`). -/
def isRootLetter (c : Char) : Bool :=
  c = 'A' ∨ c = 'B' ∨ c = 'C' ∨ c = 'D' ∨ c = 'E' ∨ c = 'F' ∨ c = 'G'

/-- Models `splitChordRootAndSuffix` of `keyTransform.ts`: the root is one
uppercase letter `A`–`G` plus at most one `b`/`#`, the suffix is the rest;
`root = none` (with the whole symbol as suffix) when the regex does not match. -/
def splitChordRootAndSuffix (symbol : String) : RootSuffix :=
  match symbol.data with
  | c :: rest =>
    if isRootLetter c then
      match rest with
      | a :: rest2 =>
        if a = 'b' ∨ a = '#' then ⟨some ⟨[c, a]⟩, ⟨rest2⟩⟩ else ⟨some ⟨[c]⟩, ⟨rest⟩⟩
      | [] => ⟨some ⟨[c]⟩, ""⟩
    else ⟨none, symbol⟩
  | [] => ⟨none, symbol⟩

/-- Models `ParsedChord` of `chordEngine.ts` (`bass?: string | null` collapses
to `Option String`). -/
structure ParsedChord where
  raw : String
  symbol : String
  bass : Option String
deriving DecidableEq

/-- JavaScript truthiness of `ParsedChord.bass` (`null`/`undefined`/`""` are
falsy). -/
def bassTruthy : Option String → Option String
  | some b => if b = "" then none else some b
  | none => none

/-- Models `transposeChord` of `keyTransform.ts`: transpose the root (fail if
it does not parse), transpose the bass when present but drop it silently when
it does not transpose, keep the suffix verbatim. -/
def transposeChord (ch : ParsedChord) (semis : Int) : Option ParsedChord :=
  let rs := splitChordRootAndSuffix ch.symbol
  match rs.root with
  | none => none
  | some root =>
    match transposeNoteName root semis with
    | none => none
    | some newRoot =>
      let newBass : Option String :=
        match bassTruthy ch.bass with
        | some b =>
          match transposeNoteName b semis with
          | some nb => if nb = "" then none else some nb
          | none => none
        | none => none
      some ⟨ch.raw, newRoot ++ rs.suffix, newBass⟩

/-- Pitch class denoted by a note-name string (MIDI mod 12), used to state
"pitch-class-equal" claims. -/
def notePitchClass (note : String) : Option Int :=
  (noteMidi (note ++ "4")).map (fun m => m.emod 12)

/-- Pitch class of a chord's root as re-parsed from its symbol. -/
def rootPitchClass (ch : ParsedChord) : Option Int :=
  match (splitChordRootAndSuffix ch.symbol).root with
  | some r => notePitchClass r
  | none => none

/-! ### lib/chordEngine.ts — tokenizer -/

/-- Separator class of the tokenizer regex `[\s,|→]+` shared by
`chordEngine.ts` and `romanEngine.ts` (`\s` modelled by the ASCII whitespace
characters that can occur here). -/
def isSepChar (c : Char) : Bool :=
  c = ' ' ∨ c = '\t' ∨ c = '\n' ∨ c = '\r' ∨ c = ',' ∨ c = '|' ∨ c = '→'

/-- Split a character list at every separator (baseline of JavaScript
`String.split` on a character class; consecutive separators produce empty
pieces, removed afterwards by the source's `filter`). -/
def splitChars (p : Char → Bool) : List Char → List (List Char)
  | [] => [[]]
  | c :: rest =>
    let r := splitChars p rest
    if p c then [] :: r
    else
      match r with
      | [] => [[c]]
      | h :: t => (c :: h) :: t

/-- The whitespace characters removed by `trim`. -/
def isJsWhitespace (c : Char) : Bool :=
  c = ' ' ∨ c = '\t' ∨ c = '\n' ∨ c = '\r'

/-- Models JavaScript `String.trim()`. -/
def trimChars (l : List Char) : List Char :=
  ((l.dropWhile isJsWhitespace).reverse.dropWhile isJsWhitespace).reverse

/-- `trim` on strings. -/
def trimStr (s : String) : String := ⟨trimChars s.data⟩

/-- Models `tokenize` of `chordEngine.ts`/`romanEngine.ts`:
`input.split(/[\s,|→]+/).map(trim).filter(nonempty)`. -/
def tokenize (input : String) : List String :=
  ((splitChars isSepChar input.data).map (fun l => trimStr ⟨l⟩)).filter
    (fun s => s.length > 0)

/-- Models `isRestToken`: `-`, the rest word, or the rest word parenthesized. -/
def isRestToken (t : String) : Bool :=
  let s := trimStr t
  s = "-" ∨ s = "休" ∨ s = "(休)" ∨ s = "（休）"

/-! ### lib/romanEngine.ts -/

/-- Models `SCALE_STEPS`: semitone offsets of the seven degrees. -/
def scaleSteps : KeyMode → List Int
  | .major => [0, 2, 4, 5, 7, 9, 11]
  | .minor => [0, 2, 3, 5, 7, 8, 10]

/-- Models `ROMAN_TO_DEGREE`. -/
def romanToDegree (s : String) : Option Nat :=
  if s = "I" then some 0
  else if s = "II" then some 1
  else if s = "III" then some 2
  else if s = "IV" then some 3
  else if s = "V" then some 4
  else if s = "VI" then some 5
  else if s = "VII" then some 6
  else none

/-- Unicode normalisation character map of `normalizeRomanToken`
(`♭ → b`, `♯/＃ → #`, full-width parens → ASCII). -/
def normChar (c : Char) : Char :=
  if c = '♭' then 'b'
  else if c = '♯' ∨ c = '＃' then '#'
  else if c = '（' then '('
  else if c = '）' then ')'
  else c

/-- One step of the global regex replace `\(([^)]+)\)` → `$1`: from a position
after `(`, take the non-`)` run; succeed when it is nonempty and a `)`
follows. -/
def spanParenContent (l : List Char) : Option (List Char × List Char) :=
  let content := l.takeWhile (fun c => c ≠ ')')
  match l.drop content.length with
  | ')' :: after => if content = [] then none else some (content, after)
  | _ => none

/-- Fuel-structured left-to-right scan of the global replace
`s.replace(/\(([^)]+)\)/g, "$1")`. -/
def flattenParensAux : Nat → List Char → List Char
  | 0, l => l
  | _ + 1, [] => []
  | fuel + 1, c :: rest =>
    if c = '(' then
      match spanParenContent rest with
      | some (content, after) => content ++ flattenParensAux fuel after
      | none => c :: flattenParensAux fuel rest
    else c :: flattenParensAux fuel rest

/-- Models `normalizeRomanToken`: trim, substitute Unicode accidentals and
parens, flatten parenthesized groups. -/
def normalizeRomanToken (token : String) : String :=
  let l := (trimChars token.data).map normChar
  ⟨flattenParensAux l.length l⟩

/-- Accidental characters of the roman regex `[b#]{0,2}`. -/
def isAccChar (c : Char) : Bool := c = 'b' ∨ c = '#'

/-- Characters of the roman-numeral class `[ivIV]`. -/
def isRomanChar (c : Char) : Bool := c = 'i' ∨ c = 'v' ∨ c = 'I' ∨ c = 'V'

/-- Decomposition by the regex `^([b#]{0,2})?([ivIV]+)(.*)$`: greedy
accidentals (at most two), then one or more roman characters, then the rest.
Backtracking over the accidental count cannot help (accidental and roman
character classes are disjoint), so the greedy reading is exact. -/
def romanMatch (l : List Char) : Option (List Char × List Char × List Char) :=
  let acc := (l.takeWhile isAccChar).take 2
  let rest := l.drop acc.length
  let roman := rest.takeWhile isRomanChar
  if roman = [] then none else some (acc, roman, rest.drop roman.length)

/-- Substring test on character lists (JavaScript `includes` / regex
`test` without anchors). -/
def hasSubstr : List Char → List Char → Bool
  | [], needle => needle.isEmpty
  | c :: t, needle => needle.isPrefixOf (c :: t) || hasSubstr t needle

/-- ASCII lowering of a character list (models the `/i` regex flag; non-ASCII
characters are left unchanged). -/
def toLowerList (l : List Char) : List Char := l.map Char.toLower

/-- Case-insensitive substring test (e.g. `/dim/i.test(tail)`). -/
def containsCI (hay needle : String) : Bool :=
  hasSubstr (toLowerList hay.data) (toLowerList needle.data)

/-- Models `/o(?![a-z])/i.test(tail)`: an `o`/`O` not followed by an ASCII
letter (the `/i` flag also widens the lookahead class to both cases). -/
def oNotFollowedByLetter : List Char → Bool
  | [] => false
  | c :: rest =>
    (decide (c = 'o' ∨ c = 'O') &&
      (match rest with
       | [] => true
       | d :: _ => !(decide (('a' ≤ d ∧ d ≤ 'z') ∨ ('A' ≤ d ∧ d ≤ 'Z'))))) ||
    oNotFollowedByLetter rest

/-- Case-insensitive starts-with (anchored `/^pat/i.test`). -/
def startsWithCI (l pat : List Char) : Bool :=
  (toLowerList pat).isPrefixOf (toLowerList l)

/-- Models `.replace(/^pat/i, rep)` for a literal pattern. -/
def replacePrefixCI (l pat rep : List Char) : List Char :=
  if startsWithCI l pat then rep ++ l.drop pat.length else l

/-- Models the quality/extension suffix computation of `parseRomanToChord`
(`romanEngine.ts` lines 91–150): casing/modifier-derived base suffix,
overridden by an explicit extension, with bare-numeral defaults for
`ii`/`V`/`I` when the trailing text is empty. -/
def romanSuffixFor (romanPart tail : List Char) : String :=
  let romanUp := romanPart.map Char.toUpper
  let isLower := toLowerList romanPart = romanPart
  let hasDim := tail.contains '°' || hasSubstr (toLowerList tail) ['d', 'i', 'm'] ||
    oNotFollowedByLetter tail ||
    (['V', 'I', 'I'].isSuffixOf romanUp && tail.contains 'o')
  let hasHalfDim := tail.contains 'ø'
  let hasAug := tail.contains '+' || hasSubstr (toLowerList tail) ['a', 'u', 'g']
  let suffix : String :=
    if hasHalfDim then "m7b5"
    else if hasDim then "dim"
    else if hasAug then "aug"
    else if isLower then "m"
    else ""
  if tail ≠ [] then
    let e := replacePrefixCI
      (replacePrefixCI
        (replacePrefixCI (tail.dropWhile isJsWhitespace)
          ['m', 'a', 'j', '7'] ['m', 'a', 'j', '7'])
        ['M', '7'] ['m', 'a', 'j', '7'])
      ['Δ', '7'] ['m', 'a', 'j', '7']
    if startsWithCI e ['m', 'a', 'j', '7'] then (if suffix = "m" then "mmaj7" else "maj7")
    else if startsWithCI e ['m', '7', 'b', '5'] then "m7b5"
    else if startsWithCI e ['m', '7'] then "m7"
    else if startsWithCI e ['7'] then "7"
    else if startsWithCI e ['s', 'u', 's', '2'] then "sus2"
    else if startsWithCI e ['s', 'u', 's', '4'] || startsWithCI e ['s', 'u', 's'] then "sus4"
    else if startsWithCI e ['a', 'd', 'd', '9'] then suffix ++ "add9"
    else if startsWithCI e ['d', 'i', 'm', '7'] then "dim7"
    else suffix
  else
    let s1 := if romanUp = ['I', 'I'] ∧ isLower then "m7" else suffix
    let s2 := if romanUp = ['V'] ∧ ¬isLower then "7" else s1
    let s3 := if romanUp = ['I'] ∧ ¬isLower then "maj7" else s2
    if hasHalfDim then "m7b5" else s3

/-- Result of `parseRomanToChord`. -/
structure RomanParsed where
  display : String
  rootPc : String
  chordSuffix : String
deriving DecidableEq

/-- Models `parseRomanToChord` of `romanEngine.ts`: normalize, decompose with
the roman regex (the trailing group is trimmed immediately), look up the scale
degree, transpose the tonic by degree plus accidentals, and compute the
suffix.  The source re-checks `rootMidi` for finiteness, which cannot fail for
an integer transposition of a finite tonic. -/
def parseRomanToChord (tokenRaw : String) (key : KeySpec) : Option RomanParsed :=
  let token := normalizeRomanToken tokenRaw
  match romanMatch token.data with
  | none => none
  | some (acc, romanPart, tailRaw) =>
    let tail := trimChars tailRaw
    match romanToDegree ⟨romanPart.map Char.toUpper⟩ with
    | none => none
    | some deg =>
      let steps := scaleSteps key.mode
      let baseSemis := steps.getD deg 0
      let accSemis : Int := -(acc.count 'b' : Int) + (acc.count '#' : Int)
      match noteMidi (key.tonic ++ "4") with
      | none => none
      | some tonicMidi =>
        let rootMidi := tonicMidi + baseSemis + accSemis
        let rootPc := stripOctave (midiToNoteName rootMidi)
        some ⟨⟨acc ++ romanPart ++ tail⟩, rootPc, romanSuffixFor romanPart tail⟩

/-- Status of a parsed token. -/
inductive ParseStatus where
  | ok
  | warn
  | error
  | rest
deriving DecidableEq

/-- Kind of a parsed token. -/
inductive ParseKind where
  | chord
  | roman
deriving DecidableEq

/-- Models `ParsedItem` of `chordEngine.ts`; absent (`undefined`) and `null`
optional fields both collapse to `none`. -/
structure ParsedItem where
  index : Nat
  raw : String
  kind : ParseKind
  status : ParseStatus
  normalized : Option String := none
  symbol : Option String := none
  bass : Option String := none
  degree : Option String := none
  message : Option String := none
deriving DecidableEq

/-- Helper for the alias regex `/^two[-\s]?five[-\s]?one$/i`: drop one
optional separator (`-` or whitespace). -/
def dropSepOpt : List Char → List Char
  | [] => []
  | c :: t => if c = '-' ∨ isJsWhitespace c then t else c :: t

/-- Models the English alias test `/^two[-\s]?five[-\s]?one$/i`. -/
def matchesTwoFiveOne (l : List Char) : Bool :=
  let low := toLowerList l
  if ['t', 'w', 'o'].isPrefixOf low then
    let l1 := dropSepOpt (low.drop 3)
    if ['f', 'i', 'v', 'e'].isPrefixOf l1 then
      dropSepOpt (l1.drop 4) = ['o', 'n', 'e']
    else false
  else false

/-- Models `expandRomanAliases` of `romanEngine.ts`. -/
def expandRomanAliases (raw : String) : List String :=
  let s := trimStr raw
  if s = "251" ∨ s = "2-5-1" then ["ii", "V7", "Imaj7"]
  else if matchesTwoFiveOne s.data then ["ii", "V7", "Imaj7"]
  else if hasSubstr s.data ['ツ', 'ー', 'フ', 'ァ', 'イ', 'ブ', 'ワ', 'ン'] then
    ["ii", "V7", "Imaj7"]
  else [raw]

/-- One token of `parseRomanInputDetailed`. -/
def parseRomanItem (key : KeySpec) (index : Nat) (raw : String) : ParsedItem :=
  if isRestToken raw then { index, raw, kind := .roman, status := .rest }
  else
    let normalized := normalizeRomanToken raw
    match parseRomanToChord normalized key with
    | none =>
      { index, raw, kind := .roman, status := .error, normalized := some normalized,
        symbol := none, message := some "ローマ数字として解釈できません" }
    | some parsed =>
      { index, raw, kind := .roman, status := .ok, normalized := some normalized,
        degree := some parsed.display,
        symbol := some (parsed.rootPc ++ parsed.chordSuffix), bass := none }

/-- Models `parseRomanInputDetailed` of `romanEngine.ts` (the `silent`
console-logging option has no bearing on the returned value). -/
def parseRomanInputDetailed (input : String) (key : KeySpec) : List ParsedItem :=
  (((tokenize input).flatMap expandRomanAliases).enum).map
    (fun p => parseRomanItem key p.1 p.2)

/-- Models `itemsToPlayableChords` of `romanEngine.ts`; the `it.symbol`
truthiness filter rejects `null`/`undefined` and the empty string. -/
def itemsToPlayableChords (items : List ParsedItem) : List ParsedChord :=
  (((items.filter (fun it => it.status = .ok ∨ it.status = .warn)).filter
      (fun it =>
        match it.symbol with
        | some s => s ≠ ""
        | none => false)).map
    (fun it => { raw := it.raw, symbol := it.symbol.getD "", bass := it.bass }))

/-! ### lib/voicingEngine.ts -/

/-- Exact rational numbers as unreduced fractions (denominator kept positive
by construction).  The source computes its voicing costs in JavaScript
floating point; all weights appearing here (`0.35`, `0.7`, integer sums and
divisions by the voice count) are modelled by exact rational arithmetic. -/
structure Frac where
  num : Int
  den : Int
deriving DecidableEq

/-- Embed an integer. -/
def Frac.ofInt (n : Int) : Frac := ⟨n, 1⟩

/-- Addition. -/
def Frac.add (a b : Frac) : Frac := ⟨a.num * b.den + b.num * a.den, a.den * b.den⟩

/-- Subtraction. -/
def Frac.sub (a b : Frac) : Frac := ⟨a.num * b.den - b.num * a.den, a.den * b.den⟩

/-- Multiplication. -/
def Frac.mul (a b : Frac) : Frac := ⟨a.num * b.num, a.den * b.den⟩

/-- Absolute value. -/
def Frac.abs (a : Frac) : Frac := ⟨|a.num|, |a.den|⟩

/-- Strict order by cross-multiplication (valid for positive denominators,
which is an invariant of every fraction built here). -/
def Frac.blt (a b : Frac) : Bool := a.num * b.den < b.num * a.den

/-- MIDI range (`Range` of `voicingEngine.ts`). -/
structure VRange where
  low : Int
  high : Int
deriving DecidableEq

/-- Models `VoicingOptions` (every field optional). -/
structure VoicingOptions where
  maxVoices : Option Nat := none
  range : Option VRange := none
  includeBass : Option Bool := none
  includeRoot : Option Bool := none
  anchorWeight : Option Frac := none
  leapPenaltyWeight : Option Frac := none
  maxLeap : Option Frac := none
deriving DecidableEq

/-- Options after applying the `??` defaults at the top of `voicingForChord`
(`maxVoices 4`, `range C2..C6`, both include flags, `anchorWeight 0.35`,
`leapPenaltyWeight 0.7`, `maxLeap 7`). -/
structure ResolvedOptions where
  maxVoices : Nat
  range : VRange
  includeBass : Bool
  includeRoot : Bool
  anchorWeight : Frac
  leapPenaltyWeight : Frac
  maxLeap : Frac
deriving DecidableEq

/-- Default resolution of the options record. -/
def resolveOptions (options : Option VoicingOptions) : ResolvedOptions :=
  { maxVoices := (options.bind (fun o => o.maxVoices)).getD 4
    range := (options.bind (fun o => o.range)).getD ⟨36, 84⟩
    includeBass := (options.bind (fun o => o.includeBass)).getD true
    includeRoot := (options.bind (fun o => o.includeRoot)).getD true
    anchorWeight := (options.bind (fun o => o.anchorWeight)).getD ⟨35, 100⟩
    leapPenaltyWeight := (options.bind (fun o => o.leapPenaltyWeight)).getD ⟨7, 10⟩
    maxLeap := (options.bind (fun o => o.maxLeap)).getD ⟨7, 1⟩ }

/-- Modelled from the spec: the repository derives a chord's tone content
through the external tonal library (`Chord.get(symbol).notes`), "a fixed
interval table keyed by quality/extension".  The table below lists the
semitone intervals for the qualities exercised in this development; a suffix
outside the table yields `[]`, modelling tonal's empty chord. -/
def suffixIntervals (suffix : String) : List Int :=
  if suffix = "" then [0, 4, 7]
  else if suffix = "m" then [0, 3, 7]
  else if suffix = "7" then [0, 4, 7, 10]
  else if suffix = "maj7" then [0, 4, 7, 11]
  else if suffix = "m7" then [0, 3, 7, 10]
  else if suffix = "dim" then [0, 3, 6]
  else if suffix = "dim7" then [0, 3, 6, 9]
  else if suffix = "m7b5" then [0, 3, 6, 10]
  else if suffix = "aug" then [0, 4, 8]
  else if suffix = "sus4" then [0, 5, 7]
  else if suffix = "sus2" then [0, 2, 7]
  else if suffix = "mmaj7" then [0, 3, 7, 11]
  else []

/-- Modelled from the spec: `Chord.get(symbol).notes` as pitch-class names
(sharp spellings; the pitch-class content is what the voicing engine
consumes). -/
def chordGetNotes (symbol : String) : List String :=
  let rs := splitChordRootAndSuffix symbol
  match rs.root with
  | none => []
  | some r =>
    match noteMidi (r ++ "4") with
    | none => []
    | some m =>
      (suffixIntervals rs.suffix).map
        (fun off => sharpNames.getD ((m + off).emod 12).toNat "C")

/-- Role of a chord tone (`ToneRole` of `voicingEngine.ts`). -/
inductive ToneRole where
  | bass
  | root
  | third
  | seventh
  | altered
  | tension
  | fifth
  | other
deriving DecidableEq

/-- Models `PcInfo`. -/
structure PcInfo where
  pc : String
  diff : Int
  role : ToneRole
deriving DecidableEq

/-- Models `toMidiPc`: `Tone.Frequency(`${pc}${octave}`).toMidi()`, `none` for
`NaN`. -/
def toMidiPc (pc : String) (octave : Int) : Option Int :=
  noteMidi (pc ++ intStr octave)

/-- Models `centerCMidi`: MIDI of `C${centerOctave}` with fallback `60`. -/
def centerCMidi (centerOctave : Int) : Int :=
  match noteMidi ("C" ++ intStr centerOctave) with
  | some m => m
  | none => 60

/-- JavaScript `((x % 12) + 12) % 12` (truncated remainders). -/
def jsEmod12 (x : Int) : Int := ((x.tmod 12) + 12).tmod 12

/-- Models `midiForPcNearAnchor`: try the five octaves around the anchor's
octave, keep the candidate closest to the anchor (first wins ties); fall back
to octave 4, then to the anchor itself. -/
def midiForPcNearAnchor (pc : String) (anchorMidi : Int) : Int :=
  let anchorOct := anchorMidi.fdiv 12 - 1
  let candidates :=
    ([anchorOct - 2, anchorOct - 1, anchorOct, anchorOct + 1, anchorOct + 2]).filterMap
      (fun o => toMidiPc pc o)
  match candidates with
  | [] =>
    match toMidiPc pc 4 with
    | some m => m
    | none => anchorMidi
  | c :: cs =>
    cs.foldl (fun best m => if |m - anchorMidi| < |best - anchorMidi| then m else best) c

/-- Closed form of the loop `while (m <= floorMidi) m += 12`: the least value
`m + 12k (k ≥ 0)` strictly above `floorMidi`. -/
def bumpAbove (m floorMidi : Int) : Int :=
  if m ≤ floorMidi then m + 12 * ((floorMidi - m).fdiv 12 + 1) else m

/-- Models `midiForPcAbove`: anchor slightly above the floor, then push up by
octaves until strictly greater. -/
def midiForPcAbove (pc : String) (floorMidi : Int) : Int :=
  bumpAbove (midiForPcNearAnchor pc (floorMidi + 6)) floorMidi

/-- The role assignment chain of `classifyChordPcs`. -/
def classifyRole (diff : Int) (hasM3 isDim7 : Bool) : ToneRole :=
  if diff = 0 then .root
  else if diff = 4 then .third
  else if diff = 3 then (if hasM3 then .altered else .third)
  else if diff = 10 ∨ diff = 11 then .seventh
  else if isDim7 ∧ diff = 9 then .seventh
  else if diff = 7 then .fifth
  else if diff = 1 then .altered
  else if diff = 2 then .tension
  else if diff = 5 then .tension
  else if diff = 6 then .altered
  else if diff = 8 then .altered
  else if diff = 9 then .tension
  else .other

/-- Models `classifyChordPcs`: root from the symbol, tone list from the chord
table, roles from semitone distances to the root, sorted ascending by
distance (JavaScript's stable sort with comparator `a.diff - b.diff`). -/
def classifyChordPcs (ch : ParsedChord) : Option String × List PcInfo :=
  match (splitChordRootAndSuffix ch.symbol).root with
  | none => (none, [])
  | some root =>
    let notePcs := (chordGetNotes ch.symbol).map stripOctave
    if notePcs = [] then (some root, [])
    else
      match toMidiPc root 4 with
      | none => (some root, [])
      | some rootMidi =>
        let hasM3 := notePcs.any (fun pc =>
          match toMidiPc pc 4 with
          | some m => jsEmod12 (m - rootMidi) = 4
          | none => false)
        let isDim7 := containsCI ch.symbol "dim7"
        let pcs := notePcs.filterMap (fun pc =>
          (toMidiPc pc 4).map (fun m =>
            let diff := jsEmod12 (m - rootMidi)
            ({ pc := pc, diff := diff, role := classifyRole diff hasM3 isDim7 } : PcInfo)))
        (some root, List.insertionSort (fun a b => a.diff ≤ b.diff) pcs)

/-- Result of `pickSetForMaxVoices`. -/
structure PickResult where
  pcs : List String
  baseIsBass : Bool
deriving DecidableEq

/-- Push a pitch class unless it is already used or the voice budget is
exhausted (the `used`-set/`length` guard of every push in
`pickSetForMaxVoices`). -/
def pushIfNew (sel : List String) (maxVoices : Nat) (pc : String) : List String :=
  if sel.contains pc ∨ maxVoices ≤ sel.length then sel else sel ++ [pc]

/-- Models `pickSetForMaxVoices`: bass (or root) first, then one third
(preferring the major third), one seventh (maj7 > b7 > other), altered tones,
tension tones, the fifth, then the root, finally pad by duplicating the last
selection (falling back to the root, then to `"C"`). -/
def pickSetForMaxVoices (ch : ParsedChord) (maxVoices : Nat)
    (includeBass includeRoot : Bool) : PickResult :=
  let cp := classifyChordPcs ch
  let rootPc := cp.1
  let pcs := cp.2
  let init : List String × Bool :=
    match (if includeBass then bassTruthy ch.bass else none) with
    | some b => ([b], true)
    | none =>
      match (if includeRoot then rootPc else none) with
      | some r => if r = "" then ([], false) else ([r], false)
      | none => ([], false)
  let sel0 := init.1
  let baseIsBass := init.2
  let thirds := pcs.filter (fun x => x.role = .third)
  let sevenths := pcs.filter (fun x => x.role = .seventh)
  let sel1 :=
    match thirds with
    | [] => sel0
    | t0 :: _ => pushIfNew sel0 maxVoices ((thirds.find? (fun t => t.diff = 4)).getD t0).pc
  let sel2 :=
    match sevenths with
    | [] => sel1
    | s0 :: _ =>
      let s7 := ((sevenths.find? (fun t => t.diff = 11)).orElse
        (fun _ => sevenths.find? (fun t => t.diff = 10))).getD s0
      pushIfNew sel1 maxVoices s7.pc
  let sel3 := (pcs.filter (fun x => x.role = .altered)).foldl
    (fun sel a => pushIfNew sel maxVoices a.pc) sel2
  let sel4 := (pcs.filter (fun x => x.role = .tension)).foldl
    (fun sel t => pushIfNew sel maxVoices t.pc) sel3
  let sel5 := (pcs.filter (fun x => x.role = .fifth)).foldl
    (fun sel f => pushIfNew sel maxVoices f.pc) sel4
  let sel6 :=
    match rootPc with
    | some r => if r = "" then sel5 else pushIfNew sel5 maxVoices r
    | none => sel5
  let pad := sel6.getLast?.getD (rootPc.getD "C")
  ⟨sel6 ++ List.replicate (maxVoices - sel6.length) pad, baseIsBass⟩

/-- Models `buildCloseStackMidis`: first tone nearest the anchor (one octave
below the center C for a bass tone), each following tone at the closest octave
strictly above the previous, then sort ascending.  The source is never called
with an empty selection. -/
def buildCloseStackMidis (pcs : List String) (centerOctave : Int)
    (baseIsBass : Bool) : List Int :=
  match pcs with
  | [] => []
  | basePc :: rest =>
    let center := centerCMidi centerOctave
    let baseAnchor := if baseIsBass then center - 12 else center
    let base := midiForPcNearAnchor basePc baseAnchor
    let midis := (rest.foldl
      (fun (st : List Int × Int) pc =>
        let m := midiForPcAbove pc st.2
        (st.1 ++ [m], m))
      ([base], base)).1
    List.insertionSort (fun a b => a ≤ b) midis

/-- Models `invertOnce`: raise the lowest pitch one octave and re-sort. -/
def invertOnce (midis : List Int) : List Int :=
  match midis with
  | [] => []
  | [x] => [x]
  | x :: rest => List.insertionSort (fun a b => a ≤ b) ((x + 12) :: rest)

/-- The successive inversions `[cur, invertOnce cur, …]` (`k + 1` entries). -/
def inversionList (cur : List Int) : Nat → List (List Int)
  | 0 => [cur]
  | k + 1 => cur :: inversionList (invertOnce cur) k

/-- Models `generateCandidates`: all inversions of the base stack (as many as
it has tones), each shifted by an octave down, not at all, and up —
inversion-major, shift-minor order. -/
def generateCandidates (base : List Int) : List (List Int) :=
  (inversionList base (base.length - 1)).flatMap
    (fun v => ([-12, 0, 12] : List Int).map (fun s => v.map (fun m => m + s)))

/-- Models `clampRange`: every pitch inside the inclusive range (vacuously
true without a range). -/
def clampRange (midis : List Int) (range : Option VRange) : Bool :=
  match range with
  | none => true
  | some r => midis.all (fun m => r.low ≤ m ∧ m ≤ r.high)

/-- Models `cost`: anchor pull on the mean pitch, plus per-voice distances to
the previous voicing of equal length, with a weighted penalty beyond the leap
threshold. -/
def costOf (cand : List Int) (prev : Option (List Int)) (centerOctave : Int)
    (anchorWeight leapPenaltyWeight maxLeap : Frac) : Frac :=
  let center := centerCMidi centerOctave
  let sum : Int := cand.foldl (fun a b => a + b) 0
  let avg : Frac := ⟨sum, (max 1 cand.length : Nat)⟩
  let c0 := anchorWeight.mul (Frac.abs (avg.sub (Frac.ofInt center)))
  match prev with
  | none => c0
  | some p =>
    if p.length ≠ cand.length then c0
    else
      (cand.zip p).foldl
        (fun acc q =>
          let d : Frac := Frac.ofInt |q.1 - q.2|
          let acc1 := acc.add d
          if maxLeap.blt d then acc1.add ((d.sub maxLeap).mul leapPenaltyWeight) else acc1)
        c0

/-- The minimum-cost scan of `voicingForChord` step 4: first candidate wins
ties (strict `<` improvement). -/
def selectBest (pool : List (List Int)) (prev : Option (List Int)) (centerOctave : Int)
    (anchorWeight leapPenaltyWeight maxLeap : Frac) : List Int :=
  match pool with
  | [] => []
  | h :: t =>
    (t.foldl
      (fun (best : List Int × Frac) cand =>
        let cc := costOf cand prev centerOctave anchorWeight leapPenaltyWeight maxLeap
        if cc.blt best.2 then (cand, cc) else best)
      (h, costOf h prev centerOctave anchorWeight leapPenaltyWeight maxLeap)).1

/-- Return value of `voicingForChord`. -/
structure VoicingResult where
  notes : List String
  midis : List Int
  pcs : List String
deriving DecidableEq

/-- The baseline close stack computed inside `voicingForChord` (steps 1–2). -/
def voicingBase (ch : ParsedChord) (centerOctave : Int)
    (options : Option VoicingOptions) : List Int :=
  let opts := resolveOptions options
  let picked := pickSetForMaxVoices ch opts.maxVoices opts.includeBass opts.includeRoot
  buildCloseStackMidis picked.pcs centerOctave picked.baseIsBass

/-- The range-filtered candidate list of `voicingForChord` (step 3). -/
def voicingCandidates (ch : ParsedChord) (centerOctave : Int)
    (options : Option VoicingOptions) : List (List Int) :=
  let opts := resolveOptions options
  (generateCandidates (voicingBase ch centerOctave options)).filter
    (fun m => clampRange m (some opts.range))

/-- Models `voicingForChord` of `voicingEngine.ts`: tone selection, close
stack, candidate generation with range filter (falling back to the unfiltered
base stack when nothing survives), minimum-cost selection. -/
def voicingForChord (ch : ParsedChord) (centerOctave : Int)
    (prevMidis : Option (List Int)) (options : Option VoicingOptions) : VoicingResult :=
  let opts := resolveOptions options
  let base := voicingBase ch centerOctave options
  let candidates := voicingCandidates ch centerOctave options
  let pool := if candidates.isEmpty then [base] else candidates
  let best := selectBest pool prevMidis centerOctave
    opts.anchorWeight opts.leapPenaltyWeight opts.maxLeap
  { notes := best.map midiToNoteName, midis := best,
    pcs := best.map (fun m => stripOctave (midiToNoteName m)) }

/-- The two sequential `if`s folding a truncated remainder into `[-6, 6]`
(`semitoneShift`, lines 31–33 of `keyTransform.ts`). -/
def foldSigned (d : Int) : Int :=
  let d1 := if d > 6 then d - 12 else d
  if d1 < -6 then d1 + 12 else d1

/-- Head of a string is not an accidental character (`b`/`#`); the condition
under which a transposed root and the old suffix re-split cleanly. -/
def noAccHead (s : String) : Bool :=
  match s.data.head? with
  | some c => !(decide (c = 'b' ∨ c = '#'))
  | none => true

/-! ### Helper lemmas -/

theorem neg_tmod_eq (a b : Int) : (-a).tmod b = -(a.tmod b) := by
  rw [Int.tmod_def, Int.tmod_def, Int.neg_tdiv]
  ring

theorem tmod12_bounds (a : Int) : -12 < a.tmod 12 ∧ a.tmod 12 < 12 := by
  have h1 := Int.tmod_lt_of_pos a (show (0 : Int) < 12 by norm_num)
  have h2 := Int.tmod_lt_of_pos (-a) (show (0 : Int) < 12 by norm_num)
  have h3 := neg_tmod_eq a 12
  omega

theorem semitoneShift_eq_foldSigned (a b : String) (x y : Int)
    (hx : noteMidi (a ++ "4") = some x) (hy : noteMidi (b ++ "4") = some y) :
    semitoneShift a b = foldSigned ((y - x).tmod 12) := by
  unfold semitoneShift foldSigned
  rw [hx, hy]

theorem foldSigned_neg_tmod (d : Int) :
    foldSigned ((-d).tmod 12) = -foldSigned (d.tmod 12) := by
  have h := tmod12_bounds d
  have hn := neg_tmod_eq d 12
  simp only [foldSigned]
  rw [hn]
  split_ifs <;> omega

theorem foldSigned_tmod_bounds (d : Int) :
    -6 ≤ foldSigned (d.tmod 12) ∧ foldSigned (d.tmod 12) ≤ 6 := by
  have h := tmod12_bounds d
  simp only [foldSigned]
  split_ifs <;> omega

/-! ### C4 -/

/-- C4: `semitoneShift` is antisymmetric (`semitoneShift a b =
-semitoneShift b a`), always lies in `[-6, 6]`, and for parsable tonics it is
the truncated difference mod 12 folded into the symmetric range by subtracting
12 when greater than 6 and adding 12 when less than -6. -/
theorem semitoneShift_antisymm_bounds (a b : String) :
    semitoneShift a b = -semitoneShift b a ∧
    -6 ≤ semitoneShift a b ∧ semitoneShift a b ≤ 6 ∧
    (∀ x y : Int, noteMidi (a ++ "4") = some x → noteMidi (b ++ "4") = some y →
      semitoneShift a b =
        (if (y - x).tmod 12 > 6 then (y - x).tmod 12 - 12
         else if (y - x).tmod 12 < -6 then (y - x).tmod 12 + 12
         else (y - x).tmod 12)) := by
  refine ⟨?_, ?_, ?_, ?_⟩
  · cases hx : noteMidi (a ++ "4") with
    | none => unfold semitoneShift; rw [hx]; cases noteMidi (b ++ "4") <;> simp
    | some x =>
      cases hy : noteMidi (b ++ "4") with
      | none => unfold semitoneShift; rw [hx, hy]; simp
      | some y =>
        rw [semitoneShift_eq_foldSigned a b x y hx hy,
          semitoneShift_eq_foldSigned b a y x hy hx]
        have : x - y = -(y - x) := by ring
        rw [this, foldSigned_neg_tmod, neg_neg]
  · cases hx : noteMidi (a ++ "4") with
    | none => unfold semitoneShift; rw [hx]; cases noteMidi (b ++ "4") <;> norm_num
    | some x =>
      cases hy : noteMidi (b ++ "4") with
      | none => unfold semitoneShift; rw [hx, hy]; norm_num
      | some y =>
        rw [semitoneShift_eq_foldSigned a b x y hx hy]
        exact (foldSigned_tmod_bounds _).1
  · cases hx : noteMidi (a ++ "4") with
    | none => unfold semitoneShift; rw [hx]; cases noteMidi (b ++ "4") <;> norm_num
    | some x =>
      cases hy : noteMidi (b ++ "4") with
      | none => unfold semitoneShift; rw [hx, hy]; norm_num
      | some y =>
        rw [semitoneShift_eq_foldSigned a b x y hx hy]
        exact (foldSigned_tmod_bounds _).2
  · intro x y hx hy
    rw [semitoneShift_eq_foldSigned a b x y hx hy]
    have h := tmod12_bounds (y - x)
    simp only [foldSigned]
    split_ifs <;> omega

/-- C4 witness at the tonics `C` and `G`. -/
theorem semitoneShift_antisymm_bounds_witness :
    semitoneShift "C" "G" = -semitoneShift "G" "C" ∧
    semitoneShift "C" "G" =
      (if ((67 : Int) - 60).tmod 12 > 6 then ((67 : Int) - 60).tmod 12 - 12
       else if ((67 : Int) - 60).tmod 12 < -6 then ((67 : Int) - 60).tmod 12 + 12
       else ((67 : Int) - 60).tmod 12) :=
  ⟨(semitoneShift_antisymm_bounds "C" "G").1,
   (semitoneShift_antisymm_bounds "C" "G").2.2.2 60 67 (by decide) (by decide)⟩

/-! ### Root parsing helpers -/

theorem rootLetter_cases (c : Char) (h : isRootLetter c = true) :
    c = 'A' ∨ c = 'B' ∨ c = 'C' ∨ c = 'D' ∨ c = 'E' ∨ c = 'F' ∨ c = 'G' := by
  simpa [isRootLetter, decide_eq_true_eq] using h

theorem root_form (sym r : String)
    (h : (splitChordRootAndSuffix sym).root = some r) :
    ∃ c, isRootLetter c = true ∧
      (r = ⟨[c]⟩ ∨ ∃ a, (a = 'b' ∨ a = '#') ∧ r = ⟨[c, a]⟩) := by
  unfold splitChordRootAndSuffix at h
  rcases hsd : sym.data with _ | ⟨c, rest⟩ <;> rw [hsd] at h
  · simp at h
  · by_cases hc : isRootLetter c
    · rcases rest with _ | ⟨a, rest2⟩
      · simp only [hc, if_true] at h
        exact ⟨c, hc, Or.inl (by injection h with h2; exact h2.symm)⟩
      · simp only [hc, if_true] at h
        by_cases ha : a = 'b' ∨ a = '#'
        · simp only [ha, if_pos, if_true] at h
          exact ⟨c, hc, Or.inr ⟨a, ha, by injection h with h2; exact h2.symm⟩⟩
        · simp only [if_neg ha] at h
          exact ⟨c, hc, Or.inl (by injection h with h2; exact h2.symm)⟩
    · simp only [hc, if_false] at h
      simp at h

theorem root_noteMidi (r : String) (c : Char) (hc : isRootLetter c = true)
    (hr : r = ⟨[c]⟩ ∨ ∃ a, (a = 'b' ∨ a = '#') ∧ r = ⟨[c, a]⟩) :
    (noteMidi (r ++ "4")).isSome = true := by
  rcases rootLetter_cases c hc with rfl | rfl | rfl | rfl | rfl | rfl | rfl <;>
    rcases hr with rfl | ⟨a, ha, rfl⟩ <;>
    first
      | decide
      | (rcases ha with rfl | rfl <;> decide)

/-! ### C5 -/

/-- C5: `transposeChord` fails exactly when the chord's root does not parse,
and on success the produced symbol is the transposed root with the input
chord's suffix appended verbatim. -/
theorem transposeChord_total_suffix (ch : ParsedChord) (s : Int) :
    (transposeChord ch s = none ↔ (splitChordRootAndSuffix ch.symbol).root = none) ∧
    (∀ out, transposeChord ch s = some out →
      ∃ r newRoot, (splitChordRootAndSuffix ch.symbol).root = some r ∧
        transposeNoteName r s = some newRoot ∧
        out.symbol = newRoot ++ (splitChordRootAndSuffix ch.symbol).suffix) := by
  cases hroot : (splitChordRootAndSuffix ch.symbol).root with
  | none =>
    constructor
    · constructor
      · intro _; rfl
      · intro _; simp only [transposeChord, hroot]
    · intro out hout
      simp only [transposeChord, hroot] at hout
      exact Option.noConfusion hout
  | some r =>
    obtain ⟨c, hc, hform⟩ := root_form _ _ hroot
    obtain ⟨m, hm⟩ := Option.isSome_iff_exists.mp (root_noteMidi r c hc hform)
    have htn : transposeNoteName r s = some (stripOctave (midiToNoteName (m + s))) := by
      unfold transposeNoteName
      rw [hm]
    constructor
    · constructor
      · intro h
        simp only [transposeChord, hroot, htn] at h
        exact Option.noConfusion h
      · intro h
        exact Option.noConfusion h
    · intro out hout
      simp only [transposeChord, hroot, htn] at hout
      refine ⟨r, stripOctave (midiToNoteName (m + s)), rfl, htn, ?_⟩
      injection hout with h2
      rw [← h2]

/-- C5 witness: an unparsable root fails, and transposing `Cmaj7` by 2 keeps
the suffix `maj7` verbatim. -/
theorem transposeChord_total_suffix_witness :
    transposeChord ⟨"Xyz", "Xyz", none⟩ 5 = none ∧
    (∃ r newRoot, (splitChordRootAndSuffix "Cmaj7").root = some r ∧
      transposeNoteName r 2 = some newRoot ∧
      (⟨"Cmaj7", "Dmaj7", none⟩ : ParsedChord).symbol =
        newRoot ++ (splitChordRootAndSuffix "Cmaj7").suffix) :=
  ⟨(transposeChord_total_suffix ⟨"Xyz", "Xyz", none⟩ 5).1.mpr (by decide),
   (transposeChord_total_suffix ⟨"Cmaj7", "Cmaj7", none⟩ 2).2
     ⟨"Cmaj7", "Dmaj7", none⟩ (by decide)⟩

/-! ### C9 -/

/-- C9: when the chord's root parses but its slash bass does not transpose,
`transposeChord` still succeeds, transposing the root and silently dropping
the bass (`bass = none`). -/
theorem transposeChord_drops_bad_bass (ch : ParsedChord) (s : Int) (r b : String)
    (hr : (splitChordRootAndSuffix ch.symbol).root = some r)
    (hb : ch.bass = some b)
    (hfail : transposeNoteName b s = none) :
    ∃ out, transposeChord ch s = some out ∧ out.bass = none ∧
      ∃ newRoot, transposeNoteName r s = some newRoot ∧
        out.symbol = newRoot ++ (splitChordRootAndSuffix ch.symbol).suffix := by
  obtain ⟨c, hc, hform⟩ := root_form _ _ hr
  obtain ⟨m, hm⟩ := Option.isSome_iff_exists.mp (root_noteMidi r c hc hform)
  have htn : transposeNoteName r s = some (stripOctave (midiToNoteName (m + s))) := by
    unfold transposeNoteName
    rw [hm]
  refine ⟨⟨ch.raw, stripOctave (midiToNoteName (m + s)) ++
      (splitChordRootAndSuffix ch.symbol).suffix, none⟩, ?_, rfl,
    stripOctave (midiToNoteName (m + s)), htn, rfl⟩
  simp only [transposeChord, hr, htn, hb]
  by_cases hbe : b = ""
  · simp [bassTruthy, hbe]
  · simp [bassTruthy, hbe, hfail]

/-- C9 witness: `C/X` transposed by 2 gives `D` with the bass dropped. -/
theorem transposeChord_drops_bad_bass_witness :
    ∃ out, transposeChord ⟨"C/X", "C", some "X"⟩ 2 = some out ∧ out.bass = none ∧
      ∃ newRoot, transposeNoteName "C" 2 = some newRoot ∧
        out.symbol = newRoot ++ (splitChordRootAndSuffix "C").suffix :=
  transposeChord_drops_bad_bass ⟨"C/X", "C", some "X"⟩ 2 "C" "X" (by decide) rfl (by decide)

/-! ### Helper lemmas for the transposition round trip -/

theorem digitChar_isDigit (n : Nat) (h : n < 10) : (Char.ofNat (48 + n)).isDigit = true := by
  interval_cases n <;> decide

theorem natCharsAux_digits (fuel : Nat) :
    ∀ (n : Nat) (acc : List Char), (∀ c ∈ acc, c.isDigit = true) →
      ∀ c ∈ natCharsAux fuel n acc, c.isDigit = true := by
  induction fuel with
  | zero => intro n acc hacc; simpa [natCharsAux] using hacc
  | succ fuel ih =>
    intro n acc hacc c hc
    unfold natCharsAux at hc
    by_cases hn : n < 10
    · rw [if_pos hn] at hc
      rcases List.mem_cons.mp hc with rfl | hc
      · exact digitChar_isDigit n hn
      · exact hacc c hc
    · rw [if_neg hn] at hc
      refine ih (n / 10) _ ?_ c hc
      intro d hd
      rcases List.mem_cons.mp hd with rfl | hd
      · exact digitChar_isDigit (n % 10) (Nat.mod_lt _ (by norm_num))
      · exact hacc d hd

theorem natChars_digits (n : Nat) : ∀ c ∈ natChars n, c.isDigit = true :=
  natCharsAux_digits (n + 1) n [] (by simp)

theorem stripOctave_append (s t : String) :
    stripOctave (s ++ t) = stripOctave s ++ stripOctave t := by
  show (⟨((s ++ t).data).filter _⟩ : String) = ⟨(s.data.filter _) ++ (t.data.filter _)⟩
  rw [String.data_append, List.filter_append]

theorem stripOctave_intStr (o : Int) :
    stripOctave (intStr o) = if o < 0 then "-" else "" := by
  have hnil : (natChars o.natAbs).filter (fun c => !c.isDigit) = [] := by
    rw [List.filter_eq_nil_iff]
    intro c hcmem
    simp [natChars_digits o.natAbs c hcmem]
  unfold stripOctave intStr intChars
  by_cases ho : o < 0
  · rw [if_pos ho, if_pos ho]
    show (⟨List.filter _ ('-' :: natChars o.natAbs)⟩ : String) = "-"
    rw [List.filter_cons]
    simp [hnil]
  · rw [if_neg ho, if_neg ho]
    show (⟨List.filter _ (natChars o.natAbs)⟩ : String) = ""
    rw [hnil]

theorem stripOctave_sharpName (k : Nat) (hk : k < 12) :
    stripOctave (sharpNames.getD k "C") = sharpNames.getD k "C" := by
  interval_cases k <;> decide

theorem emod12_toNat_lt (m : Int) : (m.emod 12).toNat < 12 := by
  have h1 : 0 ≤ m.emod 12 := Int.emod_nonneg m (by norm_num)
  have h2 : m.emod 12 < 12 := Int.emod_lt_of_pos m (by norm_num)
  omega

theorem emod12_toNat_cast (m : Int) : ((m.emod 12).toNat : Int) = m.emod 12 :=
  Int.toNat_of_nonneg (Int.emod_nonneg m (by norm_num))

theorem stripOctave_midiToNoteName (m : Int) :
    stripOctave (midiToNoteName m) =
      sharpNames.getD (m.emod 12).toNat "C" ++ (if m.fdiv 12 - 1 < 0 then "-" else "") := by
  unfold midiToNoteName
  rw [stripOctave_append, stripOctave_sharpName _ (emod12_toNat_lt m), stripOctave_intStr]

theorem sharpName_shape (k : Nat) (hk : k < 12) :
    ∃ c, isRootLetter c = true ∧
      (sharpNames.getD k "C" = ⟨[c]⟩ ∨ sharpNames.getD k "C" = ⟨[c, '#']⟩) := by
  interval_cases k
  · exact ⟨'C', by decide, Or.inl (by decide)⟩
  · exact ⟨'C', by decide, Or.inr (by decide)⟩
  · exact ⟨'D', by decide, Or.inl (by decide)⟩
  · exact ⟨'D', by decide, Or.inr (by decide)⟩
  · exact ⟨'E', by decide, Or.inl (by decide)⟩
  · exact ⟨'F', by decide, Or.inl (by decide)⟩
  · exact ⟨'F', by decide, Or.inr (by decide)⟩
  · exact ⟨'G', by decide, Or.inl (by decide)⟩
  · exact ⟨'G', by decide, Or.inr (by decide)⟩
  · exact ⟨'A', by decide, Or.inl (by decide)⟩
  · exact ⟨'A', by decide, Or.inr (by decide)⟩
  · exact ⟨'B', by decide, Or.inl (by decide)⟩

theorem split_append_letter (c : Char) (hc : isRootLetter c = true) (tail : String)
    (htail : ∀ a, tail.data.head? = some a → ¬(a = 'b' ∨ a = '#')) :
    splitChordRootAndSuffix (⟨[c]⟩ ++ tail) = ⟨some ⟨[c]⟩, tail⟩ := by
  obtain ⟨td⟩ := tail
  cases td with
  | nil => simp [splitChordRootAndSuffix, hc]
  | cons a rest =>
    have ha := htail a rfl
    simp [splitChordRootAndSuffix, hc, ha]

theorem split_append_acc (c : Char) (hc : isRootLetter c = true) (a : Char)
    (ha : a = 'b' ∨ a = '#') (tail : String) :
    splitChordRootAndSuffix (⟨[c, a]⟩ ++ tail) = ⟨some ⟨[c, a]⟩, tail⟩ := by
  obtain ⟨td⟩ := tail
  rcases ha with rfl | rfl <;> simp [splitChordRootAndSuffix, hc]

theorem rootPitchClass_eq (ch : ParsedChord) (r : String)
    (h : (splitChordRootAndSuffix ch.symbol).root = some r) :
    rootPitchClass ch = notePitchClass r := by
  unfold rootPitchClass
  rw [h]

theorem split_sharpName_append (k : Nat) (hk : k < 12) (tail : String)
    (htail : ∀ a, tail.data.head? = some a → ¬(a = 'b' ∨ a = '#')) :
    splitChordRootAndSuffix (sharpNames.getD k "C" ++ tail) =
      ⟨some (sharpNames.getD k "C"), tail⟩ := by
  obtain ⟨c, hc, hshape | hshape⟩ := sharpName_shape k hk
  · rw [hshape]; exact split_append_letter c hc tail htail
  · rw [hshape]; exact split_append_acc c hc '#' (Or.inr rfl) tail

theorem sharpName_pc (k : Nat) (hk : k < 12) :
    (noteMidi (sharpNames.getD k "C" ++ "4")).map (fun v => v.emod 12) = some (k : Int) := by
  interval_cases k <;> decide

theorem sharpName_dash_pc (k : Nat) (hk : k < 12) (dash : String)
    (hd : dash = "" ∨ dash = "-") :
    (noteMidi ((sharpNames.getD k "C" ++ dash) ++ "4")).map (fun v => v.emod 12) =
      some (k : Int) := by
  rcases hd with rfl | rfl <;> interval_cases k <;> decide

theorem sharpName_dash_ne_empty (k : Nat) (hk : k < 12) (dash : String) :
    sharpNames.getD k "C" ++ dash ≠ "" := by
  obtain ⟨c, hc, h | h⟩ := sharpName_shape k hk <;> rw [h] <;> intro heq <;>
    have h2 := congrArg String.data heq <;> rw [String.data_append] at h2 <;> simp at h2

theorem noAccHead_spec (s : String) (h : noAccHead s = true) :
    ∀ c, s.data.head? = some c → ¬(c = 'b' ∨ c = '#') := by
  intro c hc
  unfold noAccHead at h
  rw [hc] at h
  simpa using h

theorem noAccHead_dash_append (dash sfx : String) (hd : dash = "" ∨ dash = "-")
    (hs : noAccHead sfx = true) : noAccHead (dash ++ sfx) = true := by
  rcases hd with rfl | rfl
  · unfold noAccHead
    rw [String.data_append]
    show (match ((([] : List Char) ++ sfx.data).head?) with
      | some c => !(decide (c = 'b' ∨ c = '#'))
      | none => true) = true
    rw [List.nil_append]
    exact hs
  · unfold noAccHead
    rw [String.data_append]
    rfl

theorem emod_roundtrip (mr s v2 : Int) (h : v2.emod 12 = (mr + s).emod 12) :
    (v2 + -s).emod 12 = mr.emod 12 := by
  have h2 : v2 % 12 = (mr + s) % 12 := h
  show (v2 + -s) % 12 = mr % 12
  omega

/-! ### C3 -/

/-- C3 counterexample: the chord symbol `C##` (parsable root `C#`, suffix
`#`) transposed up one semitone and back lands on root `D` (pitch class 2)
instead of pitch class 1: the suffix's leading `#` is absorbed into the
transposed root when re-parsing. -/
theorem transposeChord_roundtrip_cex :
    (transposeChord ⟨"C##", "C##", none⟩ 1).bind (fun c1 => transposeChord c1 (-1)) =
      some ⟨"C##", "D", none⟩ ∧
    rootPitchClass ⟨"C##", "D", none⟩ = some 2 ∧
    rootPitchClass ⟨"C##", "C##", none⟩ = some 1 := by decide

/-- C3 (amended): for every chord whose root parses and whose suffix does not
begin with an accidental character `b`/`#`, and every integer `s`, the double
transposition by `s` and `-s` is defined and pitch-class-preserving on the
root, and on the bass whenever the chord has one that transposes. -/
theorem transposeChord_roundtrip_pc (ch : ParsedChord) (s : Int) (r : String)
    (hr : (splitChordRootAndSuffix ch.symbol).root = some r)
    (hsuf : noAccHead (splitChordRootAndSuffix ch.symbol).suffix = true) :
    ∃ c2,
      (transposeChord ch s).bind (fun c1 => transposeChord c1 (-s)) = some c2 ∧
      rootPitchClass c2 = rootPitchClass ch ∧
      (∀ b mb, ch.bass = some b → noteMidi (b ++ "4") = some mb →
        ∃ b2, c2.bass = some b2 ∧ notePitchClass b2 = notePitchClass b) := by
  obtain ⟨c, hc, hform⟩ := root_form _ _ hr
  obtain ⟨mr, hm⟩ := Option.isSome_iff_exists.mp (root_noteMidi r c hc hform)
  have htn1 : transposeNoteName r s = some (stripOctave (midiToNoteName (mr + s))) := by
    unfold transposeNoteName; rw [hm]
  set sfx := (splitChordRootAndSuffix ch.symbol).suffix with hsfx
  set k1 : Nat := ((mr + s).emod 12).toNat with hk1def
  have hk1 : k1 < 12 := emod12_toNat_lt _
  have hk1v : (k1 : Int) = (mr + s).emod 12 := emod12_toNat_cast _
  set D1 : String := (if (mr + s).fdiv 12 - 1 < 0 then "-" else "") with hD1def
  have hD1 : D1 = "" ∨ D1 = "-" := by rw [hD1def]; split_ifs <;> simp
  have hnr : stripOctave (midiToNoteName (mr + s)) = sharpNames.getD k1 "C" ++ D1 := by
    rw [stripOctave_midiToNoteName, hk1def, hD1def]
  have hsp1 : splitChordRootAndSuffix ((sharpNames.getD k1 "C" ++ D1) ++ sfx) =
      ⟨some (sharpNames.getD k1 "C"), D1 ++ sfx⟩ := by
    rw [String.append_assoc]
    exact split_sharpName_append k1 hk1 _
      (noAccHead_spec _ (noAccHead_dash_append D1 sfx hD1 hsuf))
  obtain ⟨v2, hv2mid, hv2pc⟩ := Option.map_eq_some'.mp (sharpName_pc k1 hk1)
  have htn2 : transposeNoteName (sharpNames.getD k1 "C") (-s) =
      some (stripOctave (midiToNoteName (v2 + -s))) := by
    unfold transposeNoteName; rw [hv2mid]
  set k2 : Nat := ((v2 + -s).emod 12).toNat with hk2def
  have hk2 : k2 < 12 := emod12_toNat_lt _
  have hk2v : (k2 : Int) = (v2 + -s).emod 12 := emod12_toNat_cast _
  set D2 : String := (if (v2 + -s).fdiv 12 - 1 < 0 then "-" else "") with hD2def
  have hD2 : D2 = "" ∨ D2 = "-" := by rw [hD2def]; split_ifs <;> simp
  have hnr2 : stripOctave (midiToNoteName (v2 + -s)) = sharpNames.getD k2 "C" ++ D2 := by
    rw [stripOctave_midiToNoteName, hk2def, hD2def]
  have hsp2 : splitChordRootAndSuffix ((sharpNames.getD k2 "C" ++ D2) ++ (D1 ++ sfx)) =
      ⟨some (sharpNames.getD k2 "C"), D2 ++ (D1 ++ sfx)⟩ := by
    rw [String.append_assoc]
    exact split_sharpName_append k2 hk2 _
      (noAccHead_spec _ (noAccHead_dash_append D2 _ hD2
        (noAccHead_dash_append D1 sfx hD1 hsuf)))
  have hrpc_ch : rootPitchClass ch = some (mr.emod 12) := by
    rw [rootPitchClass_eq ch r hr]
    unfold notePitchClass
    rw [hm]
    rfl
  have hrpc_goal : ∀ B2 : Option String,
      rootPitchClass ⟨ch.raw, (sharpNames.getD k2 "C" ++ D2) ++ (D1 ++ sfx), B2⟩ =
        rootPitchClass ch := by
    intro B2
    rw [rootPitchClass_eq _ (sharpNames.getD k2 "C")
        (by
          show (splitChordRootAndSuffix
            ((sharpNames.getD k2 "C" ++ D2) ++ (D1 ++ sfx))).root = _
          rw [hsp2]),
      hrpc_ch]
    unfold notePitchClass
    rw [sharpName_pc k2 hk2]
    have hchain : (v2 + -s).emod 12 = mr.emod 12 :=
      emod_roundtrip mr s v2 (hv2pc.trans hk1v)
    have hkk : ((k2 : Nat) : Int) = mr.emod 12 := hk2v.trans hchain
    rw [hkk]
  cases hbt : bassTruthy ch.bass with
  | none =>
    refine ⟨⟨ch.raw, (sharpNames.getD k2 "C" ++ D2) ++ (D1 ++ sfx), none⟩, ?_, hrpc_goal none, ?_⟩
    · have hc1 : transposeChord ch s =
          some ⟨ch.raw, (sharpNames.getD k1 "C" ++ D1) ++ sfx, none⟩ := by
        simp only [transposeChord, hr, htn1, hbt, hnr, hsfx]
      rw [hc1]
      show transposeChord ⟨ch.raw, (sharpNames.getD k1 "C" ++ D1) ++ sfx, none⟩ (-s) = _
      simp only [transposeChord, hsp1, htn2, hnr2, bassTruthy]
    · intro b mb hb hmb
      rw [hb] at hbt
      simp only [bassTruthy] at hbt
      by_cases hbe : b = ""
      · rw [hbe] at hmb
        have hnone : noteMidi ("" ++ "4") = none := by decide
        rw [hnone] at hmb
        exact Option.noConfusion hmb
      · rw [if_neg hbe] at hbt
        exact Option.noConfusion hbt
  | some b0 =>
    have hb0ne : b0 ≠ "" := by
      cases hbass : ch.bass with
      | none => rw [hbass] at hbt; exact Option.noConfusion hbt
      | some bb =>
        rw [hbass] at hbt
        simp only [bassTruthy] at hbt
        by_cases hbe : bb = ""
        · rw [if_pos hbe] at hbt; exact Option.noConfusion hbt
        · rw [if_neg hbe] at hbt
          injection hbt with h2
          rw [← h2]; exact hbe
    cases htb : transposeNoteName b0 s with
    | none =>
      refine ⟨⟨ch.raw, (sharpNames.getD k2 "C" ++ D2) ++ (D1 ++ sfx), none⟩, ?_,
        hrpc_goal none, ?_⟩
      · have hc1 : transposeChord ch s =
            some ⟨ch.raw, (sharpNames.getD k1 "C" ++ D1) ++ sfx, none⟩ := by
          simp only [transposeChord, hr, htn1, hbt, htb, hnr, hsfx]
        rw [hc1]
        show transposeChord ⟨ch.raw, (sharpNames.getD k1 "C" ++ D1) ++ sfx, none⟩ (-s) = _
        simp only [transposeChord, hsp1, htn2, hnr2, bassTruthy]
      · intro b mb hb hmb
        rw [hb] at hbt
        simp only [bassTruthy] at hbt
        by_cases hbe : b = ""
        · rw [hbe] at hmb
          have hnone : noteMidi ("" ++ "4") = none := by decide
          rw [hnone] at hmb
          exact Option.noConfusion hmb
        · rw [if_neg hbe] at hbt
          injection hbt with h2
          rw [← h2] at htb
          simp only [transposeNoteName, hmb] at htb
          exact Option.noConfusion htb
    | some nb1 =>
      obtain ⟨mb0, hbm0, hnb1⟩ : ∃ mb0, noteMidi (b0 ++ "4") = some mb0 ∧
          nb1 = stripOctave (midiToNoteName (mb0 + s)) := by
        unfold transposeNoteName at htb
        cases hx : noteMidi (b0 ++ "4") <;> rw [hx] at htb
        · exact Option.noConfusion htb
        · injection htb with h2
          exact ⟨_, rfl, h2.symm⟩
      set kb1 : Nat := ((mb0 + s).emod 12).toNat with hkb1def
      have hkb1 : kb1 < 12 := emod12_toNat_lt _
      have hkb1v : (kb1 : Int) = (mb0 + s).emod 12 := emod12_toNat_cast _
      set Db1 : String := (if (mb0 + s).fdiv 12 - 1 < 0 then "-" else "") with hDb1def
      have hDb1 : Db1 = "" ∨ Db1 = "-" := by rw [hDb1def]; split_ifs <;> simp
      have hnb1s : nb1 = sharpNames.getD kb1 "C" ++ Db1 := by
        rw [hnb1, stripOctave_midiToNoteName, hkb1def, hDb1def]
      have hnb1ne : nb1 ≠ "" := by rw [hnb1s]; exact sharpName_dash_ne_empty kb1 hkb1 Db1
      obtain ⟨vb2, hvb2mid, hvb2pc⟩ :=
        Option.map_eq_some'.mp (sharpName_dash_pc kb1 hkb1 Db1 hDb1)
      have htnb2 : transposeNoteName nb1 (-s) =
          some (stripOctave (midiToNoteName (vb2 + -s))) := by
        unfold transposeNoteName
        rw [hnb1s, hvb2mid]
      set kb2 : Nat := ((vb2 + -s).emod 12).toNat with hkb2def
      have hkb2 : kb2 < 12 := emod12_toNat_lt _
      have hkb2v : (kb2 : Int) = (vb2 + -s).emod 12 := emod12_toNat_cast _
      set Db2 : String := (if (vb2 + -s).fdiv 12 - 1 < 0 then "-" else "") with hDb2def
      have hDb2 : Db2 = "" ∨ Db2 = "-" := by rw [hDb2def]; split_ifs <;> simp
      have hnb2s : stripOctave (midiToNoteName (vb2 + -s)) =
          sharpNames.getD kb2 "C" ++ Db2 := by
        rw [stripOctave_midiToNoteName, hkb2def, hDb2def]
      have hnb2ne : stripOctave (midiToNoteName (vb2 + -s)) ≠ "" := by
        rw [hnb2s]; exact sharpName_dash_ne_empty kb2 hkb2 Db2
      refine ⟨⟨ch.raw, (sharpNames.getD k2 "C" ++ D2) ++ (D1 ++ sfx),
        some (stripOctave (midiToNoteName (vb2 + -s)))⟩, ?_, hrpc_goal _, ?_⟩
      · have hc1 : transposeChord ch s =
            some ⟨ch.raw, (sharpNames.getD k1 "C" ++ D1) ++ sfx, some nb1⟩ := by
          simp only [transposeChord, hr, htn1, hbt, htb, hnr, hsfx, if_neg hnb1ne]
        rw [hc1]
        show transposeChord ⟨ch.raw, (sharpNames.getD k1 "C" ++ D1) ++ sfx, some nb1⟩ (-s) = _
        simp only [transposeChord, hsp1, htn2, hnr2, bassTruthy, if_neg hnb1ne, htnb2,
          if_neg hnb2ne]
      · intro b mb hb hmb
        rw [hb] at hbt
        simp only [bassTruthy] at hbt
        by_cases hbe : b = ""
        · rw [hbe] at hmb
          have hnone : noteMidi ("" ++ "4") = none := by decide
          rw [hnone] at hmb
          exact Option.noConfusion hmb
        · rw [if_neg hbe] at hbt
          injection hbt with h2
          rw [← h2] at hbm0
          rw [hmb] at hbm0
          injection hbm0 with h3
          refine ⟨stripOctave (midiToNoteName (vb2 + -s)), rfl, ?_⟩
          unfold notePitchClass
          rw [hnb2s]
          rw [sharpName_dash_pc kb2 hkb2 Db2 hDb2, hmb]
          have hchain2 : (vb2 + -s).emod 12 = mb0.emod 12 :=
            emod_roundtrip mb0 s vb2 (hvb2pc.trans hkb1v)
          have hkk2 : ((kb2 : Nat) : Int) = mb.emod 12 := by
            rw [h3]
            exact hkb2v.trans hchain2
          rw [hkk2]
          rfl


/-- C3 witness: `Dm7/F` shifted up one semitone and back, root and bass pitch
classes preserved. -/
theorem transposeChord_roundtrip_pc_witness :
    ∃ c2,
      (transposeChord ⟨"Dm7/F", "Dm7", some "F"⟩ 1).bind
          (fun c1 => transposeChord c1 (-1)) = some c2 ∧
      rootPitchClass c2 = rootPitchClass ⟨"Dm7/F", "Dm7", some "F"⟩ ∧
      (∀ b mb, (⟨"Dm7/F", "Dm7", some "F"⟩ : ParsedChord).bass = some b →
        noteMidi (b ++ "4") = some mb →
        ∃ b2, c2.bass = some b2 ∧ notePitchClass b2 = notePitchClass b) :=
  transposeChord_roundtrip_pc ⟨"Dm7/F", "Dm7", some "F"⟩ 1 "D" (by decide) (by decide)

/-! ### Tokenizer lemmas -/

theorem splitChars_ne_nil (p : Char → Bool) (l : List Char) : splitChars p l ≠ [] := by
  cases l with
  | nil => simp [splitChars]
  | cons c rest =>
    simp only [splitChars]
    by_cases hc : p c = true
    · simp [hc]
    · simp only [hc]
      cases splitChars p rest <;> simp

theorem splitChars_join (p : Char → Bool) (l : List Char) :
    (splitChars p l).join = l.filter (fun c => !p c) := by
  induction l with
  | nil => simp [splitChars]
  | cons c rest ih =>
    simp only [splitChars, List.filter_cons]
    by_cases hc : p c = true
    · simp [hc, ih]
    · simp only [hc, Bool.not_false, if_true]
      cases hr : splitChars p rest with
      | nil => exact absurd hr (splitChars_ne_nil p rest)
      | cons h t =>
        rw [hr] at ih
        simp only [List.join_cons] at ih ⊢
        simp [← ih, hc]

theorem splitChars_no_sep (p : Char → Bool) (l : List Char) :
    ∀ piece ∈ splitChars p l, ∀ c ∈ piece, p c = false := by
  induction l with
  | nil =>
    intro piece hp c hc
    simp [splitChars] at hp
    subst hp
    simp at hc
  | cons a rest ih =>
    intro piece hp c hc
    simp only [splitChars] at hp
    by_cases ha : p a = true
    · simp only [ha, if_true] at hp
      rcases List.mem_cons.mp hp with rfl | hp
      · simp at hc
      · exact ih piece hp c hc
    · simp only [ha, if_false] at hp
      cases hr : splitChars p rest with
      | nil => exact absurd hr (splitChars_ne_nil p rest)
      | cons h t =>
        rw [hr] at hp
        rcases List.mem_cons.mp hp with rfl | hp
        · rcases List.mem_cons.mp hc with rfl | hc
          · simpa using ha
          · exact ih h (by rw [hr]; exact List.mem_cons_self h t) c hc
        · exact ih piece (by rw [hr]; exact List.mem_cons_of_mem h hp) c hc

theorem ws_is_sep (c : Char) (h : isJsWhitespace c = true) : isSepChar c = true := by
  simp only [isJsWhitespace, decide_eq_true_eq] at h
  rcases h with rfl | rfl | rfl | rfl <;> decide

theorem dropWhile_eq_self_of_none (w : Char → Bool) (l : List Char)
    (h : ∀ c ∈ l, w c = false) : l.dropWhile w = l := by
  cases l with
  | nil => rfl
  | cons a rest =>
    have ha := h a (List.mem_cons_self a rest)
    simp [List.dropWhile, ha]

theorem trimChars_eq_self (l : List Char) (h : ∀ c ∈ l, isJsWhitespace c = false) :
    trimChars l = l := by
  unfold trimChars
  rw [dropWhile_eq_self_of_none _ _ h,
    dropWhile_eq_self_of_none _ _ (fun c hc => h c (List.mem_reverse.mp hc)),
    List.reverse_reverse]

theorem join_filter_pos (L : List (List Char)) :
    (L.filter (fun l => decide (l.length > 0))).join = L.join := by
  induction L with
  | nil => rfl
  | cons l rest ih =>
    by_cases hl : l.length > 0
    · simp [List.filter_cons, hl, ih]
    · have : l = [] := by
        cases l with
        | nil => rfl
        | cons a b => simp at hl
      subst this
      simp [List.filter_cons, ih]

theorem tokenize_eq_pieces (s : String) :
    tokenize s =
      ((splitChars isSepChar s.data).filter (fun l => decide (l.length > 0))).map
        (fun l => (⟨l⟩ : String)) := by
  unfold tokenize
  have hmap : (splitChars isSepChar s.data).map (fun l => trimStr ⟨l⟩) =
      (splitChars isSepChar s.data).map (fun l => (⟨l⟩ : String)) := by
    apply List.map_congr_left
    intro l hl
    show trimStr ⟨l⟩ = ⟨l⟩
    unfold trimStr
    have : trimChars l = l := by
      apply trimChars_eq_self
      intro c hc
      have hsep := splitChars_no_sep isSepChar s.data l hl c hc
      cases hw : isJsWhitespace c with
      | false => rfl
      | true => rw [ws_is_sep c hw] at hsep; exact absurd hsep (by simp)
    rw [this]
  rw [hmap, List.filter_map]
  rfl

/-! ### C6 -/

/-- C6 counterexample: a hyphen between two chord symbols does not separate
them; `"C-F"` tokenizes to the single token `"C-F"`, not to `["C", "F"]`. -/
theorem tokenize_hyphen_cex :
    tokenize "C-F" = ["C-F"] ∧ tokenize "C-F" ≠ ["C", "F"] := by decide

/-- C6 (amended): the chord tokenizer splits on whitespace, commas, pipe and
arrow only, dropping empty tokens — every token is nonempty and free of those
separator characters, and the tokens' characters are exactly the input's
non-separator characters in order.  A hyphen is not a separator (a standalone
`-` is instead the rest token). -/
theorem tokenize_separator_spec (s : String) :
    (∀ t ∈ tokenize s, t.length > 0 ∧ ∀ c ∈ t.data, isSepChar c = false) ∧
    ((tokenize s).map String.data).join = s.data.filter (fun c => !isSepChar c) ∧
    isSepChar '-' = false ∧ isRestToken "-" = true := by
  refine ⟨?_, ?_, by decide, by decide⟩
  · intro t ht
    rw [tokenize_eq_pieces] at ht
    obtain ⟨l, hl, rfl⟩ := List.mem_map.mp ht
    have hl2 := List.mem_filter.mp hl
    constructor
    · simpa using hl2.2
    · intro c hc
      exact splitChars_no_sep isSepChar s.data l hl2.1 c hc
  · rw [tokenize_eq_pieces, List.map_map]
    have : (String.data ∘ fun l => (⟨l⟩ : String)) = id := rfl
    rw [this, List.map_id, join_filter_pos, splitChars_join]

/-- C6 witness: the amended tokenization at `"C F"` and its first token. -/
theorem tokenize_separator_spec_witness :
    ("C".length > 0 ∧ ∀ c ∈ "C".data, isSepChar c = false) ∧
    ((tokenize "C F").map String.data).join =
      "C F".data.filter (fun c => !isSepChar c) :=
  ⟨(tokenize_separator_spec "C F").1 "C" (by decide),
   (tokenize_separator_spec "C F").2.1⟩

/-! ### C7 -/

/-- C7: parsing `"251"` in roman mode with key C major yields exactly three
`ok` items resolving to `Dm7`, `G7`, `Cmaj7` with degree labels `ii`, `V7`,
`Imaj7`, in order. -/
theorem parseRoman_251 :
    (parseRomanInputDetailed "251" ⟨"C", .major⟩).length = 3 ∧
    (parseRomanInputDetailed "251" ⟨"C", .major⟩).map (fun it => it.status) =
      [.ok, .ok, .ok] ∧
    (parseRomanInputDetailed "251" ⟨"C", .major⟩).map (fun it => it.symbol) =
      [some "Dm7", some "G7", some "Cmaj7"] ∧
    (parseRomanInputDetailed "251" ⟨"C", .major⟩).map (fun it => it.degree) =
      [some "ii", some "V7", some "Imaj7"] := by decide

/-! ### C8 -/

theorem romanSuffixFor_nil (roman : List Char) :
    romanSuffixFor roman [] =
      (if roman.map Char.toUpper = ['I', 'I'] ∧ toLowerList roman = roman then "m7"
       else if roman.map Char.toUpper = ['V'] ∧ ¬toLowerList roman = roman then "7"
       else if roman.map Char.toUpper = ['I'] ∧ ¬toLowerList roman = roman then "maj7"
       else if toLowerList roman = roman then "m"
       else "") := by
  simp only [romanSuffixFor,
    show hasSubstr (toLowerList []) ['d', 'i', 'm'] = false from rfl,
    show oNotFollowedByLetter [] = false from rfl,
    show (([] : List Char).contains '°') = false from rfl,
    show (([] : List Char).contains 'ø') = false from rfl,
    show (([] : List Char).contains '+') = false from rfl,
    show (([] : List Char).contains 'o') = false from rfl,
    show hasSubstr (toLowerList []) ['a', 'u', 'g'] = false from rfl]
  norm_num
  split_ifs <;> simp_all

/-- C8: a roman token whose trailing modifier/extension text is empty gets a
default seventh only on three degrees — lowercase `ii` resolves with suffix
`m7`, uppercase `V` with `7`, uppercase `I` with `maj7` — and every other bare
numeral keeps its plain triad (suffix `m` when lowercase, empty otherwise). -/
theorem parseRoman_bare_defaults (token : String) (key : KeySpec)
    (acc roman : List Char)
    (hmatch : romanMatch (normalizeRomanToken token).data = some (acc, roman, []))
    (r : RomanParsed) (hp : parseRomanToChord token key = some r) :
    r.chordSuffix =
      (if roman.map Char.toUpper = ['I', 'I'] ∧ toLowerList roman = roman then "m7"
       else if roman.map Char.toUpper = ['V'] ∧ ¬toLowerList roman = roman then "7"
       else if roman.map Char.toUpper = ['I'] ∧ ¬toLowerList roman = roman then "maj7"
       else if toLowerList roman = roman then "m"
       else "") := by
  rw [← romanSuffixFor_nil]
  simp only [parseRomanToChord, hmatch] at hp
  cases hdeg : romanToDegree ⟨roman.map Char.toUpper⟩ with
  | none => rw [hdeg] at hp; exact Option.noConfusion hp
  | some deg =>
    rw [hdeg] at hp
    cases htm : noteMidi (key.tonic ++ "4") with
    | none => rw [htm] at hp; exact Option.noConfusion hp
    | some tonicMidi =>
      rw [htm] at hp
      injection hp with h2
      rw [← h2]
      rfl

/-- C8 witness: the bare lowercase numeral `vi` in C major resolves to the
plain minor triad suffix `m` (no seventh). -/
theorem parseRoman_bare_defaults_witness :
    (⟨"vi", "A", "m"⟩ : RomanParsed).chordSuffix =
      (if ['v', 'i'].map Char.toUpper = ['I', 'I'] ∧
          toLowerList ['v', 'i'] = ['v', 'i'] then "m7"
       else if ['v', 'i'].map Char.toUpper = ['V'] ∧
          ¬toLowerList ['v', 'i'] = ['v', 'i'] then "7"
       else if ['v', 'i'].map Char.toUpper = ['I'] ∧
          ¬toLowerList ['v', 'i'] = ['v', 'i'] then "maj7"
       else if toLowerList ['v', 'i'] = ['v', 'i'] then "m"
       else "") :=
  parseRoman_bare_defaults "vi" ⟨"C", .major⟩ [] ['v', 'i'] (by decide)
    ⟨"vi", "A", "m"⟩ (by decide)

/-! ### C10 -/

theorem parseRomanItem_props (key : KeySpec) (i : Nat) (raw : String) :
    (parseRomanItem key i raw).status ≠ .warn ∧
    ((parseRomanItem key i raw).status = .ok → (parseRomanItem key i raw).bass = none) := by
  unfold parseRomanItem
  by_cases hrest : isRestToken raw = true
  · simp [hrest]
  · cases hp : parseRomanToChord (normalizeRomanToken raw) key <;> simp [hrest, hp]

/-- C10: every item of `parseRomanInputDetailed` has status `rest`, `error`
or `ok` (never `warn`), every `ok` item carries no bass, and therefore
`itemsToPlayableChords` on roman output never yields a chord with a bass. -/
theorem parseRomanInput_no_warn_no_bass (input : String) (key : KeySpec) :
    (∀ it ∈ parseRomanInputDetailed input key,
      it.status ≠ .warn ∧ (it.status = .ok → it.bass = none)) ∧
    (∀ ch ∈ itemsToPlayableChords (parseRomanInputDetailed input key),
      ch.bass = none) := by
  have hitems : ∀ it ∈ parseRomanInputDetailed input key,
      it.status ≠ .warn ∧ (it.status = .ok → it.bass = none) := by
    intro it hit
    unfold parseRomanInputDetailed at hit
    obtain ⟨p, _, rfl⟩ := List.mem_map.mp hit
    exact parseRomanItem_props key p.1 p.2
  refine ⟨hitems, ?_⟩
  intro ch hch
  unfold itemsToPlayableChords at hch
  obtain ⟨it, hit, rfl⟩ := List.mem_map.mp hch
  have hit2 := List.mem_filter.mp hit
  have hit3 := List.mem_filter.mp hit2.1
  have hprops := hitems it hit3.1
  have hok : it.status = ParseStatus.ok := by
    rcases of_decide_eq_true hit3.2 with h | h
    · exact h
    · exact absurd h hprops.1
  show it.bass = none
  exact hprops.2 hok

/-- C10 witness: the first item of roman `"251"` in C major is `ok` with no
bass, and the first playable chord has no bass. -/
theorem parseRomanInput_no_warn_no_bass_witness :
    ((parseRomanItem ⟨"C", .major⟩ 0 "ii").status ≠ .warn ∧
      ((parseRomanItem ⟨"C", .major⟩ 0 "ii").status = .ok →
        (parseRomanItem ⟨"C", .major⟩ 0 "ii").bass = none)) ∧
    (⟨"ii", "Dm7", none⟩ : ParsedChord).bass = none :=
  ⟨(parseRomanInput_no_warn_no_bass "251" ⟨"C", .major⟩).1
      (parseRomanItem ⟨"C", .major⟩ 0 "ii") (by decide),
   (parseRomanInput_no_warn_no_bass "251" ⟨"C", .major⟩).2
      ⟨"ii", "Dm7", none⟩ (by decide)⟩

/-! ### Voicing-engine lemmas -/

theorem selectBest_aux_mem (prev : Option (List Int)) (centerOctave : Int)
    (aw lw ml : Frac) (S : List (List Int)) :
    ∀ (l : List (List Int)) (acc : List Int × Frac), acc.1 ∈ S → (∀ x ∈ l, x ∈ S) →
      (l.foldl (fun best cand =>
        let cc := costOf cand prev centerOctave aw lw ml
        if cc.blt best.2 then (cand, cc) else best) acc).1 ∈ S := by
  intro l
  induction l with
  | nil => intro acc ha _; exact ha
  | cons x xs ih =>
    intro acc ha hl
    simp only [List.foldl_cons]
    by_cases hc : (costOf x prev centerOctave aw lw ml).blt acc.2 = true
    · refine ih _ ?_ (fun y hy => hl y (List.mem_cons_of_mem x hy))
      simp only [hc, if_true]
      exact hl x (List.mem_cons_self x xs)
    · refine ih _ ?_ (fun y hy => hl y (List.mem_cons_of_mem x hy))
      simp only [hc, if_false]
      exact ha

theorem selectBest_mem (h : List Int) (t : List (List Int)) (prev : Option (List Int))
    (centerOctave : Int) (aw lw ml : Frac) :
    selectBest (h :: t) prev centerOctave aw lw ml ∈ h :: t := by
  unfold selectBest
  exact selectBest_aux_mem prev centerOctave aw lw ml (h :: t) t
    (h, costOf h prev centerOctave aw lw ml) (List.mem_cons_self h t)
    (fun x hx => List.mem_cons_of_mem h hx)

/-! ### C1 -/

/-- C1 counterexample: with `pitchRange = [200, 210]` no candidate survives
the range filter, the unfiltered baseline stack is returned, and its pitches
lie outside the range. -/
theorem voicingForChord_range_cex :
    (voicingForChord ⟨"C", "C", none⟩ 4 none
        (some { range := some ⟨200, 210⟩ })).midis = [60, 64, 67, 79] ∧
    ¬∀ m ∈ (voicingForChord ⟨"C", "C", none⟩ 4 none
        (some { range := some ⟨200, 210⟩ })).midis,
      (200 : Int) ≤ m ∧ m ≤ 210 := by decide

/-- C1 (amended): whenever at least one generated candidate survives the
range filter, every pitch of the returned voicing lies within the inclusive
range bounds (when none survive, the source falls back to the unfiltered
baseline stack). -/
theorem voicingForChord_inRange (ch : ParsedChord) (centerOctave : Int)
    (prev : Option (List Int)) (options : Option VoicingOptions)
    (hne : voicingCandidates ch centerOctave options ≠ []) :
    ∀ m ∈ (voicingForChord ch centerOctave prev options).midis,
      (resolveOptions options).range.low ≤ m ∧ m ≤ (resolveOptions options).range.high := by
  intro m hm
  cases hcand : voicingCandidates ch centerOctave options with
  | nil => exact absurd hcand hne
  | cons c cs =>
    have hpool : (voicingForChord ch centerOctave prev options).midis =
        selectBest (c :: cs) prev centerOctave (resolveOptions options).anchorWeight
          (resolveOptions options).leapPenaltyWeight (resolveOptions options).maxLeap := by
      simp only [voicingForChord]
      rw [hcand]
      rfl
    rw [hpool] at hm
    have hmem := selectBest_mem c cs prev centerOctave (resolveOptions options).anchorWeight
      (resolveOptions options).leapPenaltyWeight (resolveOptions options).maxLeap
    have hmem2 : selectBest (c :: cs) prev centerOctave (resolveOptions options).anchorWeight
        (resolveOptions options).leapPenaltyWeight (resolveOptions options).maxLeap ∈
        voicingCandidates ch centerOctave options := by
      rw [hcand]; exact hmem
    unfold voicingCandidates at hmem2
    have hfilter := (List.mem_filter.mp hmem2).2
    simp only [clampRange] at hfilter
    have hall := List.all_eq_true.mp hfilter m hm
    exact of_decide_eq_true hall

/-- C1 witness: the default options (range C2..C6) on a plain C chord have a
surviving candidate, and every returned pitch is inside the range. -/
theorem voicingForChord_inRange_witness :
    voicingCandidates ⟨"C", "C", none⟩ 4 none ≠ [] ∧
    ∀ m ∈ (voicingForChord ⟨"C", "C", none⟩ 4 none none).midis,
      (resolveOptions none).range.low ≤ m ∧ m ≤ (resolveOptions none).range.high :=
  ⟨by decide, voicingForChord_inRange ⟨"C", "C", none⟩ 4 none none (by decide)⟩

/-! ### C2 -/

/-- C2: at the failing inputs the code does not return an empty voicing.  For
a chord with no resolvable root (`Xyz`) the padding fallback invents four
pitch-class-C tones `[48, 60, 72, 84]`, and for a resolvable root whose
interval lookup yields no notes (`Cqqq`) it returns four copies of the root —
the spec's required empty `VoicingResult` (zero pitches) is never produced. -/
theorem voicingForChord_unresolvable_not_empty :
    (splitChordRootAndSuffix "Xyz").root = none ∧
    (voicingForChord ⟨"Xyz", "Xyz", none⟩ 4 none none).midis = [48, 60, 72, 84] ∧
    (voicingForChord ⟨"Xyz", "Xyz", none⟩ 4 none none).pcs = ["C", "C", "C", "C"] ∧
    (splitChordRootAndSuffix "Cqqq").root = some "C" ∧
    chordGetNotes "Cqqq" = [] ∧
    (voicingForChord ⟨"Cqqq", "Cqqq", none⟩ 4 none none).midis.length = 4 := by decide

end ChordApp
